import Mathlib

set_option maxRecDepth 100000

/-!
Verification of the `osint_url_extractor` plugin (`src/url_ext.py`).

The one piece of genuine logic is the URL extraction performed by
`re.findall(r"https?://[^\s]+", text)`; the surrounding command
`extract_urls_command` opens a file, runs the extraction, and emits exactly
one log event.  Strings are embedded as `List Char` (Python strings are
sequences of Unicode code points, as is `List Char` here).
-/

/-- Python's whitespace class for `\s` over `str` patterns: the ASCII
whitespace characters together with the Unicode whitespace code points
(U+0009-U+000D, U+001C-U+001F, U+0020, U+0085, U+00A0, U+1680,
U+2000-U+200A, U+2028, U+2029, U+202F, U+205F, U+3000). -/
def isPySpace (c : Char) : Bool :=
  let n := c.toNat
  n == 32 || (decide (9 ≤ n) && decide (n ≤ 13)) ||
    (decide (28 ≤ n) && decide (n ≤ 31)) ||
    n == 133 || n == 160 || n == 5760 ||
    (decide (8192 ≤ n) && decide (n ≤ 8202)) ||
    n == 8232 || n == 8233 || n == 8239 || n == 8287 || n == 12288

/-- The character class `[^\s]` of the pattern. -/
def nonspace (c : Char) : Bool := !(isPySpace c)

/-- The literal alternative `http://` of the pattern `https?://`. -/
def httpPfx : List Char := ['h', 't', 't', 'p', ':', '/', '/']

/-- The literal alternative `https://` of the pattern `https?://`. -/
def httpsPfx : List Char := ['h', 't', 't', 'p', 's', ':', '/', '/']

/-- Matching of the scheme part `https?://` at the head of `s`: returns the
length of the consumed prefix.  The optional `s?` is greedy, but the two
alternatives are mutually exclusive (the character after `http` is `s` in
one and `:` in the other), so trying `https://` first is exact. -/
def schemeLen (s : List Char) : Option Nat :=
  if List.isPrefixOf httpsPfx s then some 8
  else if List.isPrefixOf httpPfx s then some 7
  else none

/-- One attempt of the pattern `https?://[^\s]+` anchored at the head of
`s`: on success returns the matched text and the remainder of the input
after the match.  `[^\s]+` is greedy and requires at least one character. -/
def matchAt (s : List Char) : Option (List Char × List Char) :=
  match schemeLen s with
  | none => none
  | some k =>
    let run := (s.drop k).takeWhile nonspace
    if run.isEmpty then none
    else some (s.take k ++ run, (s.drop k).drop run.length)

/-- Fuelled scan of `re.findall`: try a match at every position, left to
right; on success record the match and resume after it, on failure advance
one character.  One unit of fuel is spent per step, and every step consumes
at least one character, so `fuel = s.length` is always enough. -/
def extractFuel : Nat → List Char → List (List Char)
  | 0, _ => []
  | _ + 1, [] => []
  | f + 1, c :: cs =>
    match matchAt (c :: cs) with
    | some (m, rest) => m :: extractFuel f rest
    | none => extractFuel f cs

/-- `re.findall(r"https?://[^\s]+", text)` of `src/url_ext.py` line 60. -/
def extract (s : List Char) : List (List Char) := extractFuel s.length s

/-- The same scan instrumented with the input position of each match
(`i` is the position of the head of the current suffix in the original
input).  Used to state order/non-overlap properties. -/
def extractPosFuel : Nat → Nat → List Char → List (Nat × List Char)
  | 0, _, _ => []
  | _ + 1, _, [] => []
  | f + 1, i, c :: cs =>
    match matchAt (c :: cs) with
    | some (m, rest) => (i, m) :: extractPosFuel f (i + m.length) rest
    | none => extractPosFuel f (i + 1) cs

/-- Positions and texts of all matches of the scan. -/
def extractPos (s : List Char) : List (Nat × List Char) :=
  extractPosFuel s.length 0 s

/-- Splitting into maximal runs of non-whitespace characters (tokens),
fuelled like `extractFuel`. -/
def tokenizeFuel : Nat → List Char → List (List Char)
  | 0, _ => []
  | _ + 1, [] => []
  | f + 1, c :: cs =>
    if isPySpace c then tokenizeFuel f cs
    else (c :: cs.takeWhile nonspace) :: tokenizeFuel f (cs.dropWhile nonspace)

/-- The maximal whitespace-delimited tokens of `s`, in order. -/
def tokenize (s : List Char) : List (List Char) := tokenizeFuel s.length s

/-- Does `t` begin with the literal prefix `http://` or `https://`? -/
def schemeLed (t : List Char) : Bool :=
  List.isPrefixOf httpPfx t || List.isPrefixOf httpsPfx t

/-- The specification's description of the result ("the ordered sequence of
maximal runs of non-whitespace characters that begin with the literal
prefix `http://` or `https://` ").  Stated from the spec's words, to be
compared with `extract`. -/
def specTokens (s : List Char) : List (List Char) :=
  (tokenize s).filter schemeLed

/-- The maximal run of non-whitespace characters starting at position `i`
of `s`. -/
def runAt (s : List Char) (i : Nat) : List Char := (s.drop i).takeWhile nonspace

/-- Position `i` of `s` is a benign scheme occurrence: either no scheme
prefix starts there, or it starts at a token boundary (start of string or
preceded by whitespace) and at least one non-whitespace character follows
the prefix. -/
def occOk (s : List Char) (i : Nat) : Bool :=
  match schemeLen (s.drop i) with
  | none => true
  | some k =>
    (decide (i = 0) || isPySpace (s.getD (i - 1) 'x')) &&
      nonspace ((s.drop (i + k)).headD ' ')

/-- Every scheme occurrence in `s` is benign (`occOk` holds at every
position; positions past the end hold trivially). -/
def boundaryOnly (s : List Char) : Bool := (List.range s.length).all (occOk s)

/-- Shape of every string the scan can produce: it begins with a scheme
prefix, contains no whitespace, and is strictly longer than the prefix. -/
def isUrlToken (u : List Char) : Bool :=
  match schemeLen u with
  | none => false
  | some k => u.all nonspace && decide (k < u.length)

/-- Python's `" ".join`: concatenation with a single space between
consecutive elements. -/
def spaceJoin : List (List Char) → List Char
  | [] => []
  | [u] => u
  | u :: v :: us => u ++ ' ' :: spaceJoin (v :: us)

/-- Severity of a log event (`plugin_mod.LogType`). -/
inductive LogType
  | info
  | error
deriving DecidableEq

/-- One call of `framework.logger.log` (message and severity). -/
structure LogEvent where
  log_type : LogType
  message : String
deriving DecidableEq

/-- Lowercase hexadecimal digit, as CPython prints escape codes. -/
def hexDigit (n : Nat) : Char :=
  if n < 10 then Char.ofNat (48 + n) else Char.ofNat (87 + n)

/-- The two lowercase hexadecimal digits of a byte value. -/
def hex2 (n : Nat) : List Char := [hexDigit ((n / 16) % 16), hexDigit (n % 16)]

/-- CPython's quote selection for `repr` of a str: single quotes, unless the
string contains a single quote and no double quote, in which case double
quotes are used. -/
def pyQuote (u : List Char) : Char :=
  if u.contains '\'' && !(u.contains '"') then '"' else '\''

/-- CPython's rendering of one character inside `repr` of a str, for the
chosen quote `q`: the backslash and the quote are backslash-escaped; tab,
newline and carriage return use their short escapes; the remaining
non-printable code points below 0x100 (0x00-0x1F, 0x7F-0xA0 and 0xAD) are
printed as a lowercase `\xHH` escape; every other code point below 0x100 is
printed literally.  Code points at or above 0x100 are printed literally,
which agrees with CPython for every printable character; the non-printable
ones among them (format, private-use and unassigned code points - surrogate
code points cannot occur in decoded text), which CPython hex-escapes from
its version-dependent category table, are outside this embedding. -/
def pyCharRepr (q c : Char) : List Char :=
  if c == '\\' || c == q then ['\\', c]
  else if c == '\t' then ['\\', 't']
  else if c == '\n' then ['\\', 'n']
  else if c == '\r' then ['\\', 'r']
  else if decide (c.toNat < 32) ||
      (decide (127 ≤ c.toNat) && decide (c.toNat ≤ 160)) || c.toNat == 173 then
    '\\' :: 'x' :: hex2 c.toNat
  else [c]

/-- CPython `repr` of a str, as the f-string of line 63 applies it to each
element of the url list: the chosen quote around the per-character
escaping. -/
def pyStrRepr (u : List Char) : String :=
  String.mk (pyQuote u :: (u.map (pyCharRepr (pyQuote u))).flatten ++ [pyQuote u])

/-- Python rendering of a list of strings inside an f-string:
`[repr₀, repr₁, ...]` with a comma and a space between elements. -/
def pyListRepr (us : List (List Char)) : String :=
  "[" ++ String.intercalate ", " (us.map pyStrRepr) ++ "]"

/-- The message of line 63 of `src/url_ext.py`. -/
def extractedMsg (filename : String) (urls : List (List Char)) : String :=
  "Extracted URLs from '" ++ filename ++ "': " ++ pyListRepr urls

/-- The message of line 68 of `src/url_ext.py`. -/
def noUrlsMsg (filename : String) : String :=
  "No URLs found in '" ++ filename ++ "'."

/-- The message of line 73 of `src/url_ext.py`. -/
def errMsg (filename cause : String) : String :=
  "Error extracting URLs from '" ++ filename ++ "': " ++ cause

/-- The command body `extract_urls_command` of `src/url_ext.py`.  The file
system is embedded as a function from paths to either the decoded text or
the description of the failure (open, read, or decode error); the logger is
embedded as the list of events the call emits, in order. -/
def extract_urls_command (fs : String → Except String (List Char))
    (filename : String) : List LogEvent :=
  match fs filename with
  | Except.error e => [⟨LogType.error, errMsg filename e⟩]
  | Except.ok text =>
    let urls := extract text
    if urls.isEmpty then [⟨LogType.info, noUrlsMsg filename⟩]
    else [⟨LogType.info, extractedMsg filename urls⟩]

theorem isPrefixOf_ex : ∀ {l s : List Char}, List.isPrefixOf l s = true →
    s = l ++ s.drop l.length := by
  intro l
  induction l with
  | nil => intro s _; simp
  | cons a as ih =>
    intro s h
    cases s with
    | nil => simp at h
    | cons b bs =>
      rw [List.isPrefixOf_cons₂, Bool.and_eq_true, beq_iff_eq] at h
      obtain ⟨rfl, h2⟩ := h
      simpa using ih h2

theorem isPrefixOf_length_le {l s : List Char} (h : List.isPrefixOf l s = true) :
    l.length ≤ s.length := by
  have := isPrefixOf_ex h
  calc l.length ≤ l.length + (s.drop l.length).length := Nat.le_add_right _ _
  _ = s.length := by rw [← List.length_append, ← this]

theorem isPrefixOf_self_append (l t : List Char) :
    List.isPrefixOf l (l ++ t) = true := by
  induction l with
  | nil => simp
  | cons a as ih => simp [List.isPrefixOf_cons₂, ih]

theorem isPrefixOf_trans {a b c : List Char} (h₁ : List.isPrefixOf a b = true)
    (h₂ : List.isPrefixOf b c = true) : List.isPrefixOf a c = true := by
  have hb := isPrefixOf_ex h₁
  have hc := isPrefixOf_ex h₂
  rw [hc, hb, List.append_assoc]
  exact isPrefixOf_self_append _ _

theorem isPrefixOf_append_left : ∀ {p u : List Char} (t : List Char),
    p.length ≤ u.length → List.isPrefixOf p (u ++ t) = List.isPrefixOf p u := by
  intro p
  induction p with
  | nil => intro u t _; simp
  | cons a as ih =>
    intro u t h
    cases u with
    | nil => simp at h
    | cons b bs =>
      simp only [List.cons_append, List.isPrefixOf_cons₂]
      rw [ih t (by simpa using Nat.le_of_succ_le_succ h)]

theorem httpsPfx_nonspace : ∀ a ∈ httpsPfx, nonspace a = true := by decide

theorem httpPfx_nonspace : ∀ a ∈ httpPfx, nonspace a = true := by decide

theorem scheme_cases {s : List Char} {k : Nat} (h : schemeLen s = some k) :
    (k = 8 ∧ List.isPrefixOf httpsPfx s = true) ∨
      (k = 7 ∧ List.isPrefixOf httpPfx s = true) := by
  unfold schemeLen at h
  by_cases h8 : List.isPrefixOf httpsPfx s
  · rw [if_pos h8] at h
    exact Or.inl ⟨by injection h with h; omega, h8⟩
  · rw [if_neg h8] at h
    by_cases h7 : List.isPrefixOf httpPfx s
    · rw [if_pos h7] at h
      exact Or.inr ⟨by injection h with h; omega, h7⟩
    · rw [if_neg h7] at h; cases h

theorem scheme_le_length {s : List Char} {k : Nat} (h : schemeLen s = some k) :
    7 ≤ k ∧ k ≤ s.length := by
  rcases scheme_cases h with ⟨rfl, hp⟩ | ⟨rfl, hp⟩
  · exact ⟨by omega, isPrefixOf_length_le hp⟩
  · exact ⟨by omega, isPrefixOf_length_le hp⟩

theorem scheme_none_iff {s : List Char} : schemeLen s = none ↔
    (List.isPrefixOf httpPfx s = false ∧ List.isPrefixOf httpsPfx s = false) := by
  unfold schemeLen
  cases h8 : List.isPrefixOf httpsPfx s <;>
    cases h7 : List.isPrefixOf httpPfx s <;> simp

theorem scheme_head {s : List Char} {k : Nat} (h : schemeLen s = some k) :
    ∃ t, s = 'h' :: t := by
  rcases scheme_cases h with ⟨-, hp⟩ | ⟨-, hp⟩ <;>
  · have he := isPrefixOf_ex hp
    simp only [httpsPfx, httpPfx, List.cons_append] at he
    exact ⟨_, he⟩

theorem scheme_head_nonspace {s : List Char} {k : Nat} (h : schemeLen s = some k) :
    nonspace (s.headD ' ') = true := by
  obtain ⟨t, rfl⟩ := scheme_head h
  simp only [List.headD_cons]
  decide

theorem scheme_none_of_space {c : Char} {cs : List Char}
    (h : isPySpace c = true) : schemeLen (c :: cs) = none := by
  cases hk : schemeLen (c :: cs) with
  | none => rfl
  | some k =>
    obtain ⟨t, ht⟩ := scheme_head hk
    rw [List.cons.injEq] at ht
    rw [ht.1] at h
    exact absurd h (by decide)

theorem scheme_split {s : List Char} {k : Nat} (h : schemeLen s = some k) :
    (∀ a ∈ s.take k, nonspace a = true) ∧ (s.take k).length = k ∧
      s = s.take k ++ s.drop k := by
  rcases scheme_cases h with ⟨rfl, hp⟩ | ⟨rfl, hp⟩
  · have he := isPrefixOf_ex hp
    have htake : s.take 8 = httpsPfx := by
      conv_lhs => rw [he]
      exact List.take_left' (by decide)
    refine ⟨?_, ?_, (List.take_append_drop 8 s).symm⟩
    · rw [htake]; exact httpsPfx_nonspace
    · rw [htake]; decide
  · have he := isPrefixOf_ex hp
    have htake : s.take 7 = httpPfx := by
      conv_lhs => rw [he]
      exact List.take_left' (by decide)
    refine ⟨?_, ?_, (List.take_append_drop 7 s).symm⟩
    · rw [htake]; exact httpPfx_nonspace
    · rw [htake]; decide

theorem takeWhile_scheme {s : List Char} {k : Nat} (h : schemeLen s = some k) :
    s.takeWhile nonspace = s.take k ++ (s.drop k).takeWhile nonspace := by
  obtain ⟨hall, -, hsk⟩ := scheme_split h
  conv_lhs => rw [hsk]
  rw [List.takeWhile_append_of_pos hall]

theorem dropWhile_scheme {s : List Char} {k : Nat} (h : schemeLen s = some k) :
    s.dropWhile nonspace = (s.drop k).dropWhile nonspace := by
  obtain ⟨hall, -, hsk⟩ := scheme_split h
  conv_lhs => rw [hsk]
  rw [List.dropWhile_append_of_pos hall]

theorem dropWhile_eq_drop (p : Char → Bool) (l : List Char) :
    l.dropWhile p = l.drop ((l.takeWhile p).length) := by
  induction l with
  | nil => rfl
  | cons a as ih =>
    by_cases hpa : p a
    · rw [List.dropWhile_cons_of_pos hpa, List.takeWhile_cons_of_pos hpa]
      simpa using ih
    · rw [List.dropWhile_cons_of_neg hpa, List.takeWhile_cons_of_neg hpa]
      rfl

theorem matchAt_none_of_none {s : List Char} (h : schemeLen s = none) :
    matchAt s = none := by
  unfold matchAt
  rw [h]

theorem matchAt_some_inv {s m rest : List Char}
    (h : matchAt s = some (m, rest)) :
    ∃ k, schemeLen s = some k ∧ m = s.takeWhile nonspace ∧
      rest = s.dropWhile nonspace ∧ k < m.length := by
  unfold matchAt at h
  cases hk : schemeLen s with
  | none => rw [hk] at h; cases h
  | some k =>
    rw [hk] at h
    simp only at h
    by_cases hr : ((s.drop k).takeWhile nonspace).isEmpty
    · rw [if_pos hr] at h; cases h
    · rw [if_neg hr] at h
      injection h with h'
      rw [Prod.mk.injEq] at h'
      obtain ⟨hm, hrest⟩ := h'
      obtain ⟨-, hlen, -⟩ := scheme_split hk
      have hrun : ((s.drop k).takeWhile nonspace).length ≠ 0 := by
        intro h0
        rw [List.length_eq_zero] at h0
        rw [h0] at hr
        exact hr rfl
      refine ⟨k, hk ▸ rfl, ?_, ?_, ?_⟩
      · rw [takeWhile_scheme hk, hm]
      · rw [dropWhile_scheme hk, dropWhile_eq_drop, hrest]
      · rw [← hm, List.length_append, hlen]
        omega

theorem matchAt_some_of {s : List Char} {k : Nat} (hk : schemeLen s = some k)
    (hc : nonspace ((s.drop k).headD ' ') = true) :
    matchAt s = some (s.takeWhile nonspace, s.dropWhile nonspace) := by
  unfold matchAt
  rw [hk]
  simp only
  cases hd : s.drop k with
  | nil => rw [hd] at hc; exact absurd hc (by decide)
  | cons d ds =>
    rw [hd] at hc
    simp only [List.headD_cons] at hc
    rw [List.takeWhile_cons_of_pos hc]
    rw [if_neg (by simp)]
    rw [takeWhile_scheme hk, dropWhile_scheme hk, dropWhile_eq_drop, hd,
      List.takeWhile_cons_of_pos hc]

theorem matchAt_rest_lt {s m rest : List Char} (h : matchAt s = some (m, rest)) :
    rest.length < s.length ∧ 0 < m.length := by
  obtain ⟨k, hk, hm, hrest, hkm⟩ := matchAt_some_inv h
  have h7 := scheme_le_length hk
  have hsplit : (s.takeWhile nonspace).length + (s.dropWhile nonspace).length
      = s.length := by
    rw [← List.length_append, List.takeWhile_append_dropWhile]
  constructor
  · rw [hrest]
    rw [hm] at hkm
    omega
  · omega

theorem tw_dw_length (p : Char → Bool) (l : List Char) :
    (l.takeWhile p).length + (l.dropWhile p).length = l.length := by
  rw [← List.length_append, List.takeWhile_append_dropWhile]

theorem extractFuel_mono : ∀ (f₁ : Nat) (s : List Char) (f₂ : Nat),
    s.length ≤ f₁ → s.length ≤ f₂ → extractFuel f₁ s = extractFuel f₂ s := by
  intro f₁
  induction f₁ with
  | zero =>
    intro s f₂ h₁ _
    cases s with
    | nil => cases f₂ <;> rfl
    | cons a as => simp at h₁
  | succ f ih =>
    intro s f₂ h₁ h₂
    cases s with
    | nil => cases f₂ <;> rfl
    | cons c cs =>
      cases f₂ with
      | zero => simp at h₂
      | succ g =>
        simp only [List.length_cons] at h₁ h₂
        cases hm : matchAt (c :: cs) with
        | none =>
          simp only [extractFuel, hm]
          exact ih cs g (by omega) (by omega)
        | some pr =>
          obtain ⟨m, rest⟩ := pr
          have hlt := (matchAt_rest_lt hm).1
          simp only [List.length_cons] at hlt
          simp only [extractFuel, hm]
          rw [ih rest g (by omega) (by omega)]

theorem extract_nil : extract [] = [] := rfl

theorem extract_cons_none {c : Char} {cs : List Char}
    (h : matchAt (c :: cs) = none) : extract (c :: cs) = extract cs := by
  unfold extract
  simp only [List.length_cons, extractFuel, h]

theorem extract_cons_some {c : Char} {cs m rest : List Char}
    (h : matchAt (c :: cs) = some (m, rest)) :
    extract (c :: cs) = m :: extract rest := by
  unfold extract
  simp only [List.length_cons, extractFuel, h]
  have hlt := (matchAt_rest_lt h).1
  simp only [List.length_cons] at hlt
  rw [extractFuel_mono cs.length rest rest.length (by omega) (le_refl _)]

theorem tokenizeFuel_mono : ∀ (f₁ : Nat) (s : List Char) (f₂ : Nat),
    s.length ≤ f₁ → s.length ≤ f₂ → tokenizeFuel f₁ s = tokenizeFuel f₂ s := by
  intro f₁
  induction f₁ with
  | zero =>
    intro s f₂ h₁ _
    cases s with
    | nil => cases f₂ <;> rfl
    | cons a as => simp at h₁
  | succ f ih =>
    intro s f₂ h₁ h₂
    cases s with
    | nil => cases f₂ <;> rfl
    | cons c cs =>
      cases f₂ with
      | zero => simp at h₂
      | succ g =>
        simp only [List.length_cons] at h₁ h₂
        by_cases hc : isPySpace c = true
        · simp only [tokenizeFuel, if_pos hc]
          exact ih cs g (by omega) (by omega)
        · simp only [tokenizeFuel, if_neg hc]
          have hd := tw_dw_length nonspace cs
          rw [ih (cs.dropWhile nonspace) g (by omega) (by omega)]

theorem tokenize_nil : tokenize [] = [] := rfl

theorem tokenize_cons_space {c : Char} {cs : List Char} (h : isPySpace c = true) :
    tokenize (c :: cs) = tokenize cs := by
  unfold tokenize
  simp only [List.length_cons, tokenizeFuel, if_pos h]

theorem tokenize_cons_nonspace {c : Char} {cs : List Char} (h : isPySpace c = false) :
    tokenize (c :: cs) =
      (c :: cs.takeWhile nonspace) :: tokenize (cs.dropWhile nonspace) := by
  unfold tokenize
  have hne : ¬ (isPySpace c = true) := by simp [h]
  simp only [List.length_cons, tokenizeFuel, if_neg hne]
  have hd := tw_dw_length nonspace cs
  rw [tokenizeFuel_mono cs.length (cs.dropWhile nonspace)
    (cs.dropWhile nonspace).length (by omega) (le_refl _)]

theorem extractPosFuel_mono : ∀ (f₁ : Nat) (i : Nat) (s : List Char) (f₂ : Nat),
    s.length ≤ f₁ → s.length ≤ f₂ →
      extractPosFuel f₁ i s = extractPosFuel f₂ i s := by
  intro f₁
  induction f₁ with
  | zero =>
    intro i s f₂ h₁ _
    cases s with
    | nil => cases f₂ <;> rfl
    | cons a as => simp at h₁
  | succ f ih =>
    intro i s f₂ h₁ h₂
    cases s with
    | nil => cases f₂ <;> rfl
    | cons c cs =>
      cases f₂ with
      | zero => simp at h₂
      | succ g =>
        simp only [List.length_cons] at h₁ h₂
        cases hm : matchAt (c :: cs) with
        | none =>
          simp only [extractPosFuel, hm]
          exact ih (i + 1) cs g (by omega) (by omega)
        | some pr =>
          obtain ⟨m, rest⟩ := pr
          have hlt := (matchAt_rest_lt hm).1
          simp only [List.length_cons] at hlt
          simp only [extractPosFuel, hm]
          rw [ih (i + m.length) rest g (by omega) (by omega)]

theorem https_not_pfx_of_http (t : List Char) :
    List.isPrefixOf httpsPfx (httpPfx ++ t) = false := by
  have h : ('s' == ':') = false := by decide
  simp only [httpPfx, httpsPfx, List.cons_append, List.isPrefixOf_cons₂]
  simp [h]

theorem schemeLen_http_append (t : List Char) :
    schemeLen (httpPfx ++ t) = some 7 := by
  unfold schemeLen
  rw [if_neg (by simp [https_not_pfx_of_http]),
    if_pos (isPrefixOf_self_append _ _)]

theorem schemeLen_https_append (t : List Char) :
    schemeLen (httpsPfx ++ t) = some 8 := by
  unfold schemeLen
  rw [if_pos (isPrefixOf_self_append _ _)]

theorem scheme_take {s : List Char} {k : Nat} (h : schemeLen s = some k) :
    (k = 8 ∧ s.take k = httpsPfx) ∨ (k = 7 ∧ s.take k = httpPfx) := by
  rcases scheme_cases h with ⟨rfl, hp⟩ | ⟨rfl, hp⟩
  · refine Or.inl ⟨rfl, ?_⟩
    conv_lhs => rw [isPrefixOf_ex hp]
    exact List.take_left' (by decide)
  · refine Or.inr ⟨rfl, ?_⟩
    conv_lhs => rw [isPrefixOf_ex hp]
    exact List.take_left' (by decide)

theorem matchAt_shape {s m rest : List Char} (h : matchAt s = some (m, rest)) :
    isUrlToken m = true := by
  obtain ⟨k, hk, hm, hrest, hkm⟩ := matchAt_some_inv h
  have hall : m.all nonspace = true := by
    rw [List.all_eq_true]
    intro a ha
    rw [hm] at ha
    exact List.mem_takeWhile_imp ha
  have hsm : schemeLen m = some k := by
    have htws := takeWhile_scheme hk
    rcases scheme_take hk with ⟨hk8, htk⟩ | ⟨hk7, htk⟩
    · rw [hm, htws, htk, hk8]
      exact schemeLen_https_append _
    · rw [hm, htws, htk, hk7]
      exact schemeLen_http_append _
  unfold isUrlToken
  rw [hsm]
  simp only [hall, Bool.true_and]
  simp [hkm]

theorem mem_extractFuel_shape : ∀ (f : Nat) (s u : List Char),
    u ∈ extractFuel f s → isUrlToken u = true := by
  intro f
  induction f with
  | zero => intro s u hu; simp [extractFuel] at hu
  | succ f ih =>
    intro s u hu
    cases s with
    | nil => simp [extractFuel] at hu
    | cons c cs =>
      cases hm : matchAt (c :: cs) with
      | none =>
        simp only [extractFuel, hm] at hu
        exact ih cs u hu
      | some pr =>
        obtain ⟨m, rest⟩ := pr
        simp only [extractFuel, hm, List.mem_cons] at hu
        rcases hu with rfl | hu
        · exact matchAt_shape hm
        · exact ih rest u hu

theorem mem_extract_shape {s u : List Char} (h : u ∈ extract s) :
    isUrlToken u = true :=
  mem_extractFuel_shape s.length s u h

theorem isUrlToken_inv {u : List Char} (h : isUrlToken u = true) :
    ∃ k, schemeLen u = some k ∧ u.all nonspace = true ∧ k < u.length := by
  unfold isUrlToken at h
  cases hk : schemeLen u with
  | none => rw [hk] at h; cases h
  | some k =>
    rw [hk] at h
    simp only [Bool.and_eq_true, decide_eq_true_eq] at h
    exact ⟨k, rfl, h.1, h.2⟩

theorem occOk_ge_length {s : List Char} {i : Nat} (h : s.length ≤ i) :
    occOk s i = true := by
  unfold occOk
  rw [List.drop_eq_nil_of_le h]
  rfl

theorem boundaryOnly_iff {s : List Char} :
    boundaryOnly s = true ↔ ∀ i, occOk s i = true := by
  unfold boundaryOnly
  rw [List.all_eq_true]
  constructor
  · intro h i
    by_cases hi : i < s.length
    · exact h i (List.mem_range.2 hi)
    · exact occOk_ge_length (by omega)
  · intro h i _
    exact h i

theorem occOk_some_inv {s : List Char} {i k : Nat} (hocc : occOk s i = true)
    (h : schemeLen (s.drop i) = some k) :
    (i = 0 ∨ isPySpace (s.getD (i - 1) 'x') = true) ∧
      nonspace ((s.drop (i + k)).headD ' ') = true := by
  unfold occOk at hocc
  rw [h] at hocc
  simp only [Bool.and_eq_true, Bool.or_eq_true, decide_eq_true_eq] at hocc
  exact hocc

theorem occOk_intro {s : List Char} {i : Nat}
    (h : ∀ k, schemeLen (s.drop i) = some k →
      (i = 0 ∨ isPySpace (s.getD (i - 1) 'x') = true) ∧
        nonspace ((s.drop (i + k)).headD ' ') = true) :
    occOk s i = true := by
  unfold occOk
  cases hk : schemeLen (s.drop i) with
  | none => rfl
  | some k =>
    obtain ⟨hb, hc⟩ := h k hk
    rw [Bool.and_eq_true, Bool.or_eq_true]
    refine ⟨?_, hc⟩
    rcases hb with hb | hb
    · exact Or.inl (by simp [hb])
    · exact Or.inr hb

theorem occOk_tail {c : Char} {cs : List Char}
    (h : ∀ i, occOk (c :: cs) i = true)
    (hc : schemeLen cs = none ∨ isPySpace c = true) :
    ∀ i, occOk cs i = true := by
  intro i
  apply occOk_intro
  intro k hk
  cases i with
  | zero =>
    rw [List.drop_zero] at hk
    rcases hc with hnone | hsp
    · rw [hnone] at hk; cases hk
    · have h1 := occOk_some_inv (h 1)
        (by show schemeLen ((c :: cs).drop 1) = some k; exact hk)
      have hd : (c :: cs).drop (1 + k) = cs.drop k := by
        rw [Nat.add_comm]; rfl
      rw [hd] at h1
      refine ⟨Or.inl rfl, ?_⟩
      rw [Nat.zero_add]
      exact h1.2
  | succ j =>
    have h2 := occOk_some_inv (h (j + 2))
      (by show schemeLen ((c :: cs).drop (j + 2)) = some k; exact hk)
    constructor
    · rcases h2.1 with h0 | hsp
      · exact absurd h0 (by omega)
      · refine Or.inr ?_
        have : (c :: cs).getD (j + 2 - 1) 'x' = cs.getD (j + 1 - 1) 'x' := by
          show (c :: cs).getD (j + 1) 'x' = cs.getD j 'x'
          exact List.getD_cons_succ
        rw [this] at hsp
        exact hsp
    · have harith : j + 2 + k = (j + 1 + k) + 1 := by omega
      rw [harith] at h2
      rw [List.drop_succ_cons] at h2
      exact h2.2

theorem occOk_head_no {c : Char} {cs : List Char}
    (h : ∀ i, occOk (c :: cs) i = true) (hc : isPySpace c = false) :
    schemeLen cs = none := by
  cases hk : schemeLen cs with
  | none => rfl
  | some k =>
    have h1 := occOk_some_inv (h 1)
      (by show schemeLen ((c :: cs).drop 1) = some k; exact hk)
    rcases h1.1 with h0 | hsp
    · exact absurd h0 (by omega)
    · have : (c :: cs).getD (1 - 1) 'x' = c := List.getD_cons_zero
      rw [this, hc] at hsp
      cases hsp

theorem getD_drop (s : List Char) : ∀ (n j : Nat) (d : Char),
    (s.drop n).getD j d = s.getD (n + j) d := by
  induction s with
  | nil => intro n j d; simp
  | cons a as ih =>
    intro n j d
    cases n with
    | zero => simp
    | succ m =>
      rw [List.drop_succ_cons]
      have : m + 1 + j = (m + j) + 1 := by omega
      rw [this, List.getD_cons_succ]
      exact ih m j d

theorem occOk_drop {s : List Char} (h : ∀ i, occOk s i = true) :
    ∀ n i, 1 ≤ i → occOk (s.drop n) i = true := by
  intro n i hi
  apply occOk_intro
  intro k hk
  rw [List.drop_drop] at hk
  have h2 := occOk_some_inv (h (n + i)) hk
  constructor
  · rcases h2.1 with h0 | hsp
    · exact absurd h0 (by omega)
    · refine Or.inr ?_
      rw [getD_drop]
      have : n + (i - 1) = n + i - 1 := by omega
      rw [this]
      exact hsp
  · rw [List.drop_drop]
    have : n + (i + k) = n + i + k := by omega
    rw [this]
    exact h2.2

theorem dw_head (s : List Char) :
    nonspace ((s.dropWhile nonspace).headD ' ') = false := by
  induction s with
  | nil => decide
  | cons a as ih =>
    by_cases ha : nonspace a = true
    · rw [List.dropWhile_cons_of_pos ha]; exact ih
    · rw [List.dropWhile_cons_of_neg ha]
      simp only [List.headD_cons]
      rw [Bool.not_eq_true] at ha
      exact ha

theorem occOk_dropWhile {s : List Char} (h : ∀ i, occOk s i = true) :
    ∀ i, occOk (s.dropWhile nonspace) i = true := by
  intro i
  cases i with
  | zero =>
    apply occOk_intro
    intro k hk
    rw [List.drop_zero] at hk
    obtain ⟨t, ht⟩ := scheme_head hk
    have hdw := dw_head s
    rw [ht, List.headD_cons] at hdw
    exact absurd hdw (by decide)
  | succ j =>
    rw [dropWhile_eq_drop]
    exact occOk_drop h _ _ (by omega)

theorem tw_isPrefixOf (p : Char → Bool) (l : List Char) :
    List.isPrefixOf (l.takeWhile p) l = true := by
  have h := isPrefixOf_self_append (l.takeWhile p) (l.dropWhile p)
  rw [List.takeWhile_append_dropWhile] at h
  exact h

theorem schemeLed_iff {t : List Char} :
    schemeLed t = false ↔ schemeLen t = none := by
  unfold schemeLed
  rw [scheme_none_iff]
  cases h7 : List.isPrefixOf httpPfx t <;>
    cases h8 : List.isPrefixOf httpsPfx t <;> simp

theorem schemeLed_tw_of_none {s : List Char} (h : schemeLen s = none) :
    schemeLed (s.takeWhile nonspace) = false := by
  rw [schemeLed_iff]
  cases hk : schemeLen (s.takeWhile nonspace) with
  | none => rfl
  | some k =>
    exfalso
    rcases scheme_cases hk with ⟨-, hp⟩ | ⟨-, hp⟩
    · have h2 := isPrefixOf_trans hp (tw_isPrefixOf nonspace s)
      rw [scheme_none_iff] at h
      rw [h.2] at h2; cases h2
    · have h2 := isPrefixOf_trans hp (tw_isPrefixOf nonspace s)
      rw [scheme_none_iff] at h
      rw [h.1] at h2; cases h2

theorem schemeLed_tw_of_some {s : List Char} {k : Nat}
    (hk : schemeLen s = some k) :
    schemeLed (s.takeWhile nonspace) = true := by
  rw [takeWhile_scheme hk]
  unfold schemeLed
  rw [Bool.or_eq_true]
  rcases scheme_take hk with ⟨-, htk⟩ | ⟨-, htk⟩
  · rw [htk]
    exact Or.inr (isPrefixOf_self_append _ _)
  · rw [htk]
    exact Or.inl (isPrefixOf_self_append _ _)

theorem specTokens_cons_space {c : Char} {cs : List Char}
    (h : isPySpace c = true) : specTokens (c :: cs) = specTokens cs := by
  unfold specTokens
  rw [tokenize_cons_space h]

theorem specTokens_cons_skip {c : Char} {cs : List Char}
    (hc : isPySpace c = false) (h0 : schemeLen (c :: cs) = none)
    (h1 : schemeLen cs = none) : specTokens (c :: cs) = specTokens cs := by
  unfold specTokens
  rw [tokenize_cons_nonspace hc]
  have hcn : nonspace c = true := by unfold nonspace; rw [hc]; rfl
  have htw0 : (c :: cs).takeWhile nonspace = c :: cs.takeWhile nonspace :=
    List.takeWhile_cons_of_pos hcn
  have hhead : schemeLed (c :: cs.takeWhile nonspace) = false := by
    rw [← htw0]
    exact schemeLed_tw_of_none h0
  rw [List.filter_cons_of_neg (by simp [hhead])]
  cases cs with
  | nil => rfl
  | cons d ds =>
    by_cases hd : isPySpace d = true
    · have hdn : ¬ (nonspace d = true) := by simp [nonspace, hd]
      rw [List.dropWhile_cons_of_neg hdn]
    · have hd' : isPySpace d = false := by simp [hd]
      have hdn : nonspace d = true := by simp [nonspace, hd']
      rw [List.dropWhile_cons_of_pos hdn]
      rw [tokenize_cons_nonspace hd']
      have hhead2 : schemeLed (d :: ds.takeWhile nonspace) = false := by
        have htw1 : (d :: ds).takeWhile nonspace = d :: ds.takeWhile nonspace :=
          List.takeWhile_cons_of_pos hdn
        rw [← htw1]
        exact schemeLed_tw_of_none h1
      rw [List.filter_cons_of_neg (by simp [hhead2])]

theorem specTokens_cons_url {s : List Char} {k : Nat}
    (hk : schemeLen s = some k) :
    specTokens s = (s.takeWhile nonspace) :: specTokens (s.dropWhile nonspace) := by
  have hled := schemeLed_tw_of_some hk
  obtain ⟨t, rfl⟩ := scheme_head hk
  have h1 : ('h' :: t).takeWhile nonspace = 'h' :: t.takeWhile nonspace :=
    List.takeWhile_cons_of_pos (by decide)
  have h2 : ('h' :: t).dropWhile nonspace = t.dropWhile nonspace :=
    List.dropWhile_cons_of_pos (by decide)
  unfold specTokens
  rw [tokenize_cons_nonspace (by decide), h1, h2]
  rw [h1] at hled
  rw [List.filter_cons_of_pos hled]

theorem extract_eq_specTokens_aux : ∀ (n : Nat) (s : List Char), s.length ≤ n →
    (∀ i, occOk s i = true) → extract s = specTokens s := by
  intro n
  induction n with
  | zero =>
    intro s h _
    cases s with
    | nil => rfl
    | cons a as => simp at h
  | succ n ih =>
    intro s hlen hocc
    cases s with
    | nil => rfl
    | cons c cs =>
      simp only [List.length_cons] at hlen
      by_cases hc : isPySpace c = true
      · rw [extract_cons_none (matchAt_none_of_none (scheme_none_of_space hc))]
        rw [specTokens_cons_space hc]
        exact ih cs (by omega) (occOk_tail hocc (Or.inr hc))
      · have hc' : isPySpace c = false := by simp [hc]
        cases hk : schemeLen (c :: cs) with
        | none =>
          have h1 := occOk_head_no hocc hc'
          rw [extract_cons_none (matchAt_none_of_none hk)]
          rw [specTokens_cons_skip hc' hk h1]
          exact ih cs (by omega) (occOk_tail hocc (Or.inl h1))
        | some k =>
          have hinv := occOk_some_inv (hocc 0)
            (by rw [List.drop_zero]; exact hk)
          have hcont : nonspace (((c :: cs).drop k).headD ' ') = true := by
            have h3 := hinv.2
            rw [Nat.zero_add] at h3
            exact h3
          have hmatch := matchAt_some_of hk hcont
          rw [extract_cons_some hmatch]
          rw [specTokens_cons_url hk]
          congr 1
          have hlen2 : ((c :: cs).dropWhile nonspace).length ≤ n := by
            have h3 := tw_dw_length nonspace (c :: cs)
            have hcn : nonspace c = true := by simp [nonspace, hc']
            rw [List.takeWhile_cons_of_pos hcn] at h3
            simp only [List.length_cons] at h3 hlen
            omega
          exact ih _ hlen2 (occOk_dropWhile hocc)

theorem extract_eq_specTokens {s : List Char} (h : boundaryOnly s = true) :
    extract s = specTokens s :=
  extract_eq_specTokens_aux s.length s (le_refl _) (boundaryOnly_iff.1 h)

theorem tw_length_le_of_space : ∀ (s : List Char) (j : Nat),
    isPySpace (s.getD j 'x') = true → (s.takeWhile nonspace).length ≤ j := by
  intro s
  induction s with
  | nil => intro j _; simp
  | cons a as ih =>
    intro j hj
    cases j with
    | zero =>
      rw [List.getD_cons_zero] at hj
      have ha : ¬ (nonspace a = true) := by simp [nonspace, hj]
      rw [List.takeWhile_cons_of_neg ha]
      simp
    | succ m =>
      rw [List.getD_cons_succ] at hj
      by_cases ha : nonspace a = true
      · rw [List.takeWhile_cons_of_pos ha]
        simp only [List.length_cons]
        have := ih m hj
        omega
      · rw [List.takeWhile_cons_of_neg ha]
        simp

theorem runAt_mem_posFuel : ∀ (f : Nat) (s : List Char), s.length ≤ f →
    ∀ (off i k : Nat), schemeLen (s.drop i) = some k →
      (i = 0 ∨ isPySpace (s.getD (i - 1) 'x') = true) →
      nonspace ((s.drop (i + k)).headD ' ') = true →
      (off + i, runAt s i) ∈ extractPosFuel f off s := by
  intro f
  induction f with
  | zero =>
    intro s hlen off i k hk _ _
    cases s with
    | nil =>
      have h0 : schemeLen ([] : List Char) = none := rfl
      rw [List.drop_nil, h0] at hk
      cases hk
    | cons a as => simp at hlen
  | succ f ih =>
    intro s hlen off i k hk hb hcont
    cases s with
    | nil =>
      have h0 : schemeLen ([] : List Char) = none := rfl
      rw [List.drop_nil, h0] at hk
      cases hk
    | cons c cs =>
      simp only [List.length_cons] at hlen
      cases i with
      | zero =>
        rw [List.drop_zero] at hk
        rw [Nat.zero_add] at hcont
        have hmatch := matchAt_some_of hk hcont
        simp only [extractPosFuel, hmatch]
        have hrun : runAt (c :: cs) 0 = (c :: cs).takeWhile nonspace := by
          unfold runAt
          rw [List.drop_zero]
        rw [hrun, Nat.add_zero]
        exact List.mem_cons_self _ _
      | succ j =>
        have hsp : isPySpace ((c :: cs).getD j 'x') = true := by
          rcases hb with h0 | hsp
          · exact absurd h0 (by omega)
          · have h1 : j + 1 - 1 = j := by omega
            rw [h1] at hsp
            exact hsp
        cases hm : matchAt (c :: cs) with
        | none =>
          simp only [extractPosFuel, hm]
          have hk' : schemeLen (cs.drop j) = some k := hk
          have hcont' : nonspace ((cs.drop (j + k)).headD ' ') = true := by
            have harith : j + 1 + k = (j + k) + 1 := by omega
            rw [harith, List.drop_succ_cons] at hcont
            exact hcont
          have hb' : j = 0 ∨ isPySpace (cs.getD (j - 1) 'x') = true := by
            cases j with
            | zero => exact Or.inl rfl
            | succ m =>
              refine Or.inr ?_
              rw [List.getD_cons_succ] at hsp
              have h1 : m + 1 - 1 = m := by omega
              rw [h1]
              exact hsp
          have hrun : runAt (c :: cs) (j + 1) = runAt cs j := rfl
          rw [hrun]
          have hmem := ih cs (by omega) (off + 1) j k hk' hb' hcont'
          have harith2 : off + 1 + j = off + (j + 1) := by omega
          rw [harith2] at hmem
          exact hmem
        | some pr =>
          obtain ⟨m, rest⟩ := pr
          simp only [extractPosFuel, hm]
          refine List.mem_cons_of_mem _ ?_
          obtain ⟨k', hk0, hmtw, hrdw, hkm⟩ := matchAt_some_inv hm
          have hmj : m.length ≤ j := by
            rw [hmtw]
            exact tw_length_le_of_space (c :: cs) j hsp
          have hrd : rest = (c :: cs).drop m.length := by
            rw [hrdw, dropWhile_eq_drop, ← hmtw]
          have hrestlen : rest.length ≤ f := by
            have h2 := (matchAt_rest_lt hm).1
            simp only [List.length_cons] at h2
            omega
          have hdropeq : ∀ a : Nat, rest.drop a = (c :: cs).drop (m.length + a) := by
            intro a
            rw [hrd, List.drop_drop]
          have harith1 : m.length + (j + 1 - m.length) = j + 1 := by omega
          have hk' : schemeLen (rest.drop (j + 1 - m.length)) = some k := by
            rw [hdropeq, harith1]
            exact hk
          have hb' : (j + 1 - m.length) = 0 ∨
              isPySpace (rest.getD (j + 1 - m.length - 1) 'x') = true := by
            refine Or.inr ?_
            rw [hrd, getD_drop]
            have h5 : m.length + (j + 1 - m.length - 1) = j := by omega
            rw [h5]
            exact hsp
          have hcont' :
              nonspace ((rest.drop (j + 1 - m.length + k)).headD ' ') = true := by
            rw [hdropeq]
            have h6 : m.length + (j + 1 - m.length + k) = j + 1 + k := by omega
            rw [h6]
            exact hcont
          have hmem := ih rest hrestlen (off + m.length) (j + 1 - m.length) k
            hk' hb' hcont'
          have hreq : runAt rest (j + 1 - m.length) = runAt (c :: cs) (j + 1) := by
            unfold runAt
            rw [hdropeq, harith1]
          have harith3 : off + m.length + (j + 1 - m.length) = off + (j + 1) := by
            omega
          rw [hreq, harith3] at hmem
          exact hmem

theorem schemeLen_append {u : List Char} {k : Nat} (t : List Char)
    (h : schemeLen u = some k) : schemeLen (u ++ t) = some k := by
  rcases scheme_take h with ⟨rfl, htk⟩ | ⟨rfl, htk⟩
  · have hu : u = httpsPfx ++ u.drop 8 := by
      conv_lhs => rw [← List.take_append_drop 8 u]
      rw [htk]
    rw [hu, List.append_assoc]
    exact schemeLen_https_append _
  · have hu : u = httpPfx ++ u.drop 7 := by
      conv_lhs => rw [← List.take_append_drop 7 u]
      rw [htk]
    rw [hu, List.append_assoc]
    exact schemeLen_http_append _

theorem matchAt_url_append {u t : List Char} (hu : isUrlToken u = true)
    (ht : nonspace (t.headD ' ') = false) :
    matchAt (u ++ t) = some (u, t) := by
  obtain ⟨k, hk, hall, hklen⟩ := isUrlToken_inv hu
  have hkle : k ≤ u.length := by omega
  have hsl : schemeLen (u ++ t) = some k := schemeLen_append t hk
  unfold matchAt
  rw [hsl]
  simp only
  have hdk : (u ++ t).drop k = u.drop k ++ t := List.drop_append_of_le_length hkle
  have hdall : ∀ a ∈ u.drop k, nonspace a = true := by
    intro a ha
    rw [List.all_eq_true] at hall
    exact hall a (List.mem_of_mem_drop ha)
  have htwt : t.takeWhile nonspace = [] := by
    cases t with
    | nil => rfl
    | cons d ds =>
      rw [List.headD_cons] at ht
      exact List.takeWhile_cons_of_neg (by simp [ht])
  have hrun : ((u ++ t).drop k).takeWhile nonspace = u.drop k := by
    rw [hdk, List.takeWhile_append_of_pos hdall, htwt, List.append_nil]
  rw [hrun]
  have hne : ¬ ((u.drop k).isEmpty = true) := by
    rw [List.isEmpty_iff]
    intro h0
    have := congrArg List.length h0
    rw [List.length_drop] at this
    simp at this
    omega
  rw [if_neg hne]
  have htake : (u ++ t).take k = u.take k := List.take_append_of_le_length hkle
  rw [htake, hdk]
  rw [List.take_append_drop k u]
  rw [List.drop_left]

theorem extract_spaceJoin : ∀ (L : List (List Char)),
    (∀ u ∈ L, isUrlToken u = true) → extract (spaceJoin L) = L := by
  intro L
  induction L with
  | nil => intro _; rfl
  | cons u us ih =>
    intro hall
    cases us with
    | nil =>
      have hu := hall u (List.mem_cons_self _ _)
      have hm : matchAt (u ++ []) = some (u, []) :=
        matchAt_url_append hu (by decide)
      rw [List.append_nil] at hm
      obtain ⟨k, hk, -, -⟩ := isUrlToken_inv hu
      obtain ⟨t, ht⟩ := scheme_head hk
      show extract u = [u]
      rw [ht]
      rw [ht] at hm
      rw [extract_cons_some hm]
      rfl
    | cons v vs =>
      have hu := hall u (List.mem_cons_self _ _)
      have hm : matchAt (u ++ ' ' :: spaceJoin (v :: vs)) =
          some (u, ' ' :: spaceJoin (v :: vs)) :=
        matchAt_url_append hu (by rw [List.headD_cons]; decide)
      show extract (u ++ ' ' :: spaceJoin (v :: vs)) = u :: v :: vs
      obtain ⟨k, hk, -, -⟩ := isUrlToken_inv hu
      obtain ⟨t, ht⟩ := scheme_head hk
      rw [ht]
      rw [ht] at hm
      simp only [List.cons_append] at hm ⊢
      rw [extract_cons_some hm]
      rw [extract_cons_none (matchAt_none_of_none (scheme_none_of_space (by decide)))]
      rw [ih (fun w hw => hall w (List.mem_cons_of_mem _ hw))]

theorem take_tw_length (p : Char → Bool) : ∀ (l : List Char),
    l.take ((l.takeWhile p).length) = l.takeWhile p := by
  intro l
  induction l with
  | nil => rfl
  | cons a as ih =>
    by_cases ha : p a = true
    · rw [List.takeWhile_cons_of_pos ha]
      simp only [List.length_cons, List.take_succ_cons]
      rw [ih]
    · rw [List.takeWhile_cons_of_neg ha]
      rfl

theorem extractPosFuel_snd : ∀ (f i : Nat) (s : List Char),
    (extractPosFuel f i s).map Prod.snd = extractFuel f s := by
  intro f
  induction f with
  | zero => intro i s; rfl
  | succ f ih =>
    intro i s
    cases s with
    | nil => rfl
    | cons c cs =>
      cases hm : matchAt (c :: cs) with
      | none =>
        simp only [extractPosFuel, extractFuel, hm]
        exact ih (i + 1) cs
      | some pr =>
        obtain ⟨m, rest⟩ := pr
        simp only [extractPosFuel, extractFuel, hm, List.map_cons]
        rw [ih (i + m.length) rest]

theorem extractPosFuel_props : ∀ (f i : Nat) (s : List Char),
    (∀ p ∈ extractPosFuel f i s, i ≤ p.1 ∧
        (s.drop (p.1 - i)).take p.2.length = p.2) ∧
      List.Pairwise (fun a b => a.1 + a.2.length ≤ b.1) (extractPosFuel f i s) := by
  intro f
  induction f with
  | zero =>
    intro i s
    exact ⟨fun p hp => by simp [extractPosFuel] at hp, List.Pairwise.nil⟩
  | succ f ih =>
    intro i s
    cases s with
    | nil => exact ⟨fun p hp => by simp [extractPosFuel] at hp, List.Pairwise.nil⟩
    | cons c cs =>
      cases hm : matchAt (c :: cs) with
      | none =>
        simp only [extractPosFuel, hm]
        obtain ⟨ihm, ihp⟩ := ih (i + 1) cs
        refine ⟨?_, ihp⟩
        intro p hp
        obtain ⟨hle, htk⟩ := ihm p hp
        refine ⟨by omega, ?_⟩
        have harith : p.1 - i = (p.1 - (i + 1)) + 1 := by omega
        rw [harith, List.drop_succ_cons]
        exact htk
      | some pr =>
        obtain ⟨m, rest⟩ := pr
        simp only [extractPosFuel, hm]
        obtain ⟨k, hk0, hmtw, hrdw, -⟩ := matchAt_some_inv hm
        have hrd : rest = (c :: cs).drop m.length := by
          rw [hrdw, dropWhile_eq_drop, ← hmtw]
        obtain ⟨ihm, ihp⟩ := ih (i + m.length) rest
        constructor
        · intro p hp
          rcases List.mem_cons.1 hp with rfl | hp
          · refine ⟨le_refl _, ?_⟩
            simp only [Nat.sub_self, List.drop_zero]
            rw [hmtw, take_tw_length]
          · obtain ⟨hle, htk⟩ := ihm p hp
            refine ⟨by omega, ?_⟩
            rw [hrd, List.drop_drop] at htk
            have harith : m.length + (p.1 - (i + m.length)) = p.1 - i := by omega
            rw [harith] at htk
            exact htk
        · refine List.Pairwise.cons ?_ ihp
          intro b hb
          exact (ihm b hb).1

theorem extractPos_snd (s : List Char) :
    (extractPos s).map Prod.snd = extract s :=
  extractPosFuel_snd s.length 0 s

theorem extractPos_mem {s : List Char} {p : Nat × List Char}
    (hp : p ∈ extractPos s) : (s.drop p.1).take p.2.length = p.2 := by
  have h := ((extractPosFuel_props s.length 0 s).1 p hp).2
  rw [Nat.sub_zero] at h
  exact h

theorem extractPos_chain (s : List Char) :
    List.Pairwise (fun a b => a.1 + a.2.length ≤ b.1) (extractPos s) :=
  (extractPosFuel_props s.length 0 s).2

theorem extractPos_strict (s : List Char) :
    List.Pairwise (fun a b => a.1 < b.1) (extractPos s) := by
  have hpos : ∀ p ∈ extractPos s, 0 < p.2.length := by
    intro p hp
    have hmem : p.2 ∈ (extractPos s).map Prod.snd :=
      List.mem_map_of_mem Prod.snd hp
    rw [extractPos_snd] at hmem
    obtain ⟨k, -, -, hkl⟩ := isUrlToken_inv (mem_extract_shape hmem)
    omega
  refine List.Pairwise.imp_of_mem ?_ (extractPos_chain s)
  intro a b ha _ hr
  have := hpos a ha
  omega

theorem run_error {fs : String → Except String (List Char)} {path cause : String}
    (h : fs path = Except.error cause) :
    extract_urls_command fs path = [⟨LogType.error, errMsg path cause⟩] := by
  unfold extract_urls_command
  rw [h]

theorem run_ok_nil {fs : String → Except String (List Char)} {path : String}
    {text : List Char} (h : fs path = Except.ok text) (he : extract text = []) :
    extract_urls_command fs path = [⟨LogType.info, noUrlsMsg path⟩] := by
  unfold extract_urls_command
  rw [h]
  simp only [he]
  rfl

theorem run_ok_cons {fs : String → Except String (List Char)} {path : String}
    {text : List Char} (h : fs path = Except.ok text) (he : extract text ≠ []) :
    extract_urls_command fs path =
      [⟨LogType.info, extractedMsg path (extract text)⟩] := by
  unfold extract_urls_command
  rw [h]
  have hemp : (extract text).isEmpty = false := by
    rw [List.isEmpty_eq_false]
    exact he
  simp only [hemp]
  rfl

/-- Claim C1 (amended): the regex scan agrees with the spec's "ordered
sequence of maximal runs of non-whitespace characters that begin with
http:// or https://" on every input whose scheme occurrences all start at a
token boundary and are followed by at least one non-whitespace character;
in general a match may also begin in the middle of a run (see the
counterexample), and a bare prefix is never matched.  On the scenario input
the output is ["http://a.com", "https://b.com/x?y=1"]. -/
theorem C1_extract_eq_spec :
    (∀ s : List Char, boundaryOnly s = true → extract s = specTokens s)
    ∧ extract ("see http://a.com and https://b.com/x?y=1 now".toList)
      = ["http://a.com".toList, "https://b.com/x?y=1".toList] :=
  ⟨fun _ h => extract_eq_specTokens h, by decide⟩

/-- Claim C1 counterexample: on "xhttp://a.com" the code extracts
["http://a.com"], which is not the sequence of maximal non-whitespace runs
beginning with the prefix (that sequence is empty). -/
theorem C1_cex :
    extract ("xhttp://a.com".toList) ≠ specTokens ("xhttp://a.com".toList) := by
  decide

/-- Claim C1 witness: the amended theorem applied to the scenario input. -/
theorem C1_witness :
    extract ("see http://a.com and https://b.com/x?y=1 now".toList)
      = specTokens ("see http://a.com and https://b.com/x?y=1 now".toList) :=
  C1_extract_eq_spec.1 ("see http://a.com and https://b.com/x?y=1 now".toList)
    (by decide)

/-- Claim C2: every invocation emits exactly one log event; an Error event
with the path and the cause when the file system fails, the "No URLs found"
Info event when extraction is empty, and the "Extracted URLs" Info event
otherwise; never both kinds, never none. -/
theorem C2_single_event :
    ∀ (fs : String → Except String (List Char)) (path : String),
      (∃ e : LogEvent, extract_urls_command fs path = [e])
      ∧ (∀ cause, fs path = Except.error cause →
          extract_urls_command fs path = [⟨LogType.error, errMsg path cause⟩])
      ∧ (∀ text, fs path = Except.ok text → extract text = [] →
          extract_urls_command fs path = [⟨LogType.info, noUrlsMsg path⟩])
      ∧ (∀ text, fs path = Except.ok text → extract text ≠ [] →
          extract_urls_command fs path =
            [⟨LogType.info, extractedMsg path (extract text)⟩]) := by
  intro fs path
  refine ⟨?_, ?_, ?_, ?_⟩
  · cases hfs : fs path with
    | error e => exact ⟨_, run_error hfs⟩
    | ok text =>
      by_cases he : extract text = []
      · exact ⟨_, run_ok_nil hfs he⟩
      · exact ⟨_, run_ok_cons hfs he⟩
  · intro cause hc
    exact run_error hc
  · intro text ht he
    exact run_ok_nil ht he
  · intro text ht he
    exact run_ok_cons ht he

/-- Claim C2 witness: a missing file produces exactly the Error event. -/
theorem C2_witness :
    extract_urls_command (fun _ => Except.error "No such file or directory")
      "missing.txt"
      = [⟨LogType.error, errMsg "missing.txt" "No such file or directory"⟩] :=
  (C2_single_event (fun _ => Except.error "No such file or directory")
    "missing.txt").2.1 "No such file or directory" rfl

/-- Claim C3 (amended): if the suffix of s at i starts with http:// or
https://, i is a token boundary (start of string or preceded by
whitespace), and at least one non-whitespace character follows the scheme
prefix, then the maximal non-whitespace run starting at i appears in
extract(s)'s output, in order: the scan records it as the match at position
i, the output is the position-ordered projection of the recorded matches,
and recorded positions strictly increase left to right.  Without the
extra condition the claim fails on a bare prefix (see the
counterexample). -/
theorem C3_boundary_mem :
    (∀ (s : List Char) (i k : Nat),
      schemeLen (s.drop i) = some k →
      (i = 0 ∨ isPySpace (s.getD (i - 1) 'x') = true) →
      nonspace ((s.drop (i + k)).headD ' ') = true →
      (i, runAt s i) ∈ extractPos s ∧ runAt s i ∈ extract s)
    ∧ (∀ s : List Char, extract s = (extractPos s).map Prod.snd)
    ∧ (∀ s : List Char, List.Pairwise (fun a b => a.1 < b.1) (extractPos s)) := by
  refine ⟨?_, fun s => (extractPos_snd s).symm, extractPos_strict⟩
  intro s i k hk hb hc
  have hpos : (0 + i, runAt s i) ∈ extractPos s :=
    runAt_mem_posFuel s.length s (le_refl _) 0 i k hk hb hc
  rw [Nat.zero_add] at hpos
  refine ⟨hpos, ?_⟩
  have hmem := List.mem_map_of_mem Prod.snd hpos
  rw [extractPos_snd] at hmem
  exact hmem

/-- Claim C3 counterexample: on "http://" the suffix at position 0 starts
with http:// and 0 is a token boundary, yet the maximal run ("http://"
itself) is not in the output, which is empty. -/
theorem C3_cex :
    schemeLen (("http://".toList).drop 0) = some 7
    ∧ (0 = 0 ∨ isPySpace (("http://".toList).getD (0 - 1) 'x') = true)
    ∧ runAt ("http://".toList) 0 ∉ extract ("http://".toList) :=
  ⟨by decide, Or.inl rfl, by decide⟩

/-- Claim C3 witness: the boundary occurrence at position 4 of
"see http://a.com now" is recorded as the match at position 4. -/
theorem C3_witness :
    (4, runAt ("see http://a.com now".toList) 4) ∈
      extractPos ("see http://a.com now".toList) :=
  (C3_boundary_mem.1 ("see http://a.com now".toList) 4 7 (by decide) (by decide)
    (by decide)).1

/-- Claim C4: extraction is idempotent on its output; re-running it on the
space-joined concatenation of the extracted URLs returns the same
sequence. -/
theorem C4_idempotent : ∀ s : List Char,
    extract (spaceJoin (extract s)) = extract s :=
  fun s => extract_spaceJoin (extract s) (fun _ hu => mem_extract_shape hu)

/-- Claim C5: the output lists the matches in strictly increasing position
order (consecutive matches do not even overlap), each recorded match is the
substring of the input at its position, and duplicates are preserved, as on
the scenario input "http://a.com http://a.com". -/
theorem C5_order :
    (∀ s : List Char, extract s = (extractPos s).map Prod.snd)
    ∧ (∀ s : List Char,
        List.Pairwise (fun a b => a.1 + a.2.length ≤ b.1) (extractPos s))
    ∧ (∀ (s : List Char) (p : Nat × List Char), p ∈ extractPos s →
        (s.drop p.1).take p.2.length = p.2)
    ∧ extract ("http://a.com http://a.com".toList)
      = ["http://a.com".toList, "http://a.com".toList] :=
  ⟨fun s => (extractPos_snd s).symm, extractPos_chain,
    fun _ _ hp => extractPos_mem hp, by decide⟩

/-- Claim C5 witness: the second duplicate match sits at position 13 of the
scenario input. -/
theorem C5_witness :
    (("http://a.com http://a.com".toList).drop 13).take
      (("http://a.com".toList).length) = "http://a.com".toList :=
  C5_order.2.2.1 ("http://a.com http://a.com".toList)
    (13, "http://a.com".toList) (by decide)

/-- Claim C6: the empty input yields the empty output sequence, and the
invocation reports the "No URLs found" Info event rather than an error. -/
theorem C6_empty :
    extract [] = []
    ∧ ∀ (fs : String → Except String (List Char)) (path : String),
        fs path = Except.ok [] →
        extract_urls_command fs path = [⟨LogType.info, noUrlsMsg path⟩] :=
  ⟨rfl, fun _ _ h => run_ok_nil h rfl⟩

/-- Claim C6 witness: reading an empty file reports "No URLs found". -/
theorem C6_witness :
    extract_urls_command (fun _ => Except.ok []) "empty.txt"
      = [⟨LogType.info, noUrlsMsg "empty.txt"⟩] :=
  C6_empty.2 (fun _ => Except.ok []) "empty.txt" rfl

/-- Claim C7: trailing punctuation with no intervening whitespace is
included in the match; the scenario input keeps ")", "." and the closing
quote inside the extracted URL. -/
theorem C7_trailing :
    extract ("visit http://a.com/page).”".toList)
      = ["http://a.com/page).”".toList] := by decide

/-- Claim C8: the invocation is deterministic and depends only on the text
the file system returns for the given path; no other state influences the
result, and the matching step performs no effect (it is a function of the
text alone). -/
theorem C8_pure :
    ∀ (fs₁ fs₂ : String → Except String (List Char)) (path : String),
      fs₁ path = fs₂ path →
      extract_urls_command fs₁ path = extract_urls_command fs₂ path := by
  intro fs₁ fs₂ path h
  unfold extract_urls_command
  rw [h]

/-- Claim C8 witness: two file systems agreeing on the path produce the same
event list. -/
theorem C8_witness :
    extract_urls_command (fun _ => Except.ok ('h' :: [])) "f.txt"
      = extract_urls_command
          (fun p => if p = "f.txt" then Except.ok ('h' :: [])
            else Except.error "gone") "f.txt" :=
  C8_pure _ _ "f.txt" rfl

/-- Claim C9: every string in the output starts with http:// or https://,
contains no whitespace, and is strictly longer than its scheme prefix; in
particular neither bare "http://" nor bare "https://" can appear. -/
theorem C9_shape : ∀ (s u : List Char), u ∈ extract s →
    (List.isPrefixOf httpPfx u = true ∨ List.isPrefixOf httpsPfx u = true)
    ∧ u.all nonspace = true
    ∧ (∀ k, schemeLen u = some k → k < u.length)
    ∧ u ≠ httpPfx ∧ u ≠ httpsPfx := by
  intro s u hu
  obtain ⟨k, hk, hall, hklen⟩ := isUrlToken_inv (mem_extract_shape hu)
  refine ⟨?_, hall, ?_, ?_, ?_⟩
  · rcases scheme_cases hk with ⟨-, hp⟩ | ⟨-, hp⟩
    · exact Or.inr hp
    · exact Or.inl hp
  · intro k' hk'
    rw [hk] at hk'
    injection hk' with h
    omega
  · rintro rfl
    have h7 : schemeLen httpPfx = some 7 := by decide
    rw [h7] at hk
    injection hk with h
    have hlen7 : httpPfx.length = 7 := rfl
    rw [hlen7] at hklen
    omega
  · rintro rfl
    have h8 : schemeLen httpsPfx = some 8 := by decide
    rw [h8] at hk
    injection hk with h
    have hlen8 : httpsPfx.length = 8 := rfl
    rw [hlen8] at hklen
    omega

/-- Claim C9 witness: the extracted URL of "http://a.com" satisfies the
shape properties. -/
theorem C9_witness :
    ("http://a.com".toList).all nonspace = true :=
  (C9_shape ("http://a.com".toList) ("http://a.com".toList) (by decide)).2.1

/-- Claim C10: matches need not start at a token boundary; on
"xhttp://a.com" the output contains "http://a.com" even though the maximal
non-whitespace run containing it (the whole input) does not begin with the
scheme prefix. -/
theorem C10_mid_run :
    extract ("xhttp://a.com".toList) = ["http://a.com".toList]
    ∧ runAt ("xhttp://a.com".toList) 0 = "xhttp://a.com".toList
    ∧ schemeLed (runAt ("xhttp://a.com".toList) 0) = false :=
  ⟨by decide, by decide, by decide⟩
